import Mathlib

/-!
Verification development for the directory-tree engine of
`Directory_Manager_CLI` (`src/main.py`).

Paths are modelled as `List Char` (Python `str`), and the directory tree as
the rose tree `Node` whose children are an association list from child name
to child node, mirroring the insertion-ordered Python `dict`:
a new key is appended at the end, updating an existing key keeps its
position.  The Python code mutates nodes through references; the functions
below compute the resulting tree as seen from the root (unreachable heap
garbage has no counterpart in the model).
-/

set_option maxHeartbeats 1000000

namespace DirCLI

/-- `String.toList`, used to spell concrete path literals. -/
def strL (s : String) : List Char := s.toList

/-- The reserved characters of `_is_valid_path` (Python literal `'\/:*?"<>|'`,
which denotes the nine characters backslash, slash, colon, asterisk,
question mark, double quote, less-than, greater-than, pipe). -/
def reservedChars : List Char := ['\\', '/', ':', '*', '?', '"', '<', '>', '|']

/-- The whitespace characters stripped by Python `str.strip()` (ASCII part). -/
def isSpaceChar (c : Char) : Bool :=
  c = ' ' || c = '\t' || c = '\n' || c = '\r' || c = Char.ofNat 11 || c = Char.ofNat 12

/-- Python `str.strip()`: drop whitespace from both ends. -/
def trimChars (l : List Char) : List Char :=
  ((l.dropWhile isSpaceChar).reverse.dropWhile isSpaceChar).reverse

/-- Python `str.split(sep)` for a one-character separator: split on every
occurrence, keeping empty pieces. -/
def splitOnChar (c : Char) : List Char → List (List Char)
  | [] => [[]]
  | x :: xs =>
    match splitOnChar c xs with
    | [] => [[]]
    | r :: rs => if x = c then [] :: r :: rs else (x :: r) :: rs

/-- Python `str.find`/`str.index` for a character that is present (the code
only compares finds of characters it has already tested with `in`). -/
def firstIdx (c : Char) : List Char → Nat
  | [] => 0
  | x :: xs => if x = c then 0 else firstIdx c xs + 1

/-- Python `str.rindex` for a character that is present: index of its last
occurrence. -/
def rIdx (c : Char) (l : List Char) : Nat :=
  l.length - 1 - firstIdx c l.reverse

/-- A directory: `Node.__init__` stores a name and an (insertion-ordered)
mapping from child name to child node. -/
inductive Node : Type where
  | mk (name : List Char) (children : List (List Char × Node))

/-- The `name` attribute. -/
def Node.name : Node → List Char
  | Node.mk n _ => n

/-- The `children` attribute. -/
def Node.children : Node → List (List Char × Node)
  | Node.mk _ ch => ch

/-- `DirectoryManager.__init__`: the root node `Node("")`. -/
def rootNode : Node := Node.mk [] []

/-- Python `children[k]` / `children.get(k)`: first binding of the key. -/
def lookupA : List (List Char × Node) → List Char → Option Node
  | [], _ => none
  | (k, v) :: rest, key => if k = key then some v else lookupA rest key

/-- Python `children[k] = w` for a key that is already present: the binding
is updated in place. -/
def setA : List (List Char × Node) → List Char → Node → List (List Char × Node)
  | [], _, _ => []
  | (k, v) :: rest, key, w => if k = key then (k, w) :: rest else (k, v) :: setA rest key w

/-- Python `children.pop(k)` / `del children[k]`: drop the first binding of
the key. -/
def eraseA : List (List Char × Node) → List Char → List (List Char × Node)
  | [], _ => []
  | (k, v) :: rest, key => if k = key then rest else (k, v) :: eraseA rest key

/-- Python `children.keys()`. -/
def keysA (ch : List (List Char × Node)) : List (List Char) := ch.map Prod.fst

/-- `[p for p in path.split('/') if p]`: segments of a path, empty pieces
dropped. -/
def segs (path : List Char) : List (List Char) :=
  (splitOnChar '/' path).filter (fun s => !s.isEmpty)

/-- `DirectoryManager._is_valid_path`. -/
def isValidPath (path : List Char) : Bool :=
  if path.isEmpty then false
  else (segs path).all fun part =>
    !part.isEmpty && !(part.any fun c => reservedChars.contains c)

/-- `DirectoryManager._is_subdirectory`: the parent's segments are a strict
prefix of the child's segments. -/
def isSubdirectory (parentPath childPath : List Char) : Bool :=
  let pp := segs parentPath
  let cp := segs childPath
  if cp.length ≤ pp.length then false
  else (pp.zip cp).all fun q => decide (q.1 = q.2)

/-- `DirectoryManager._expand_path_list`.  In the nested branch,
`path.take (rIdx '/' path + 1)` is Python's `base_path = path[:path.rindex('/') + 1]`
and `path.drop (rIdx '/' path + 1)` the remainder that is split on commas. -/
def expandPathList (path : List Char) : List (List Char) :=
  if !(path.contains ',') then [path]
  else if !(path.contains '/') || firstIdx ',' path < firstIdx '/' path then
    ((splitOnChar ',' path).filter fun q => !(trimChars q).isEmpty).map trimChars
  else
    (((splitOnChar ',' (path.drop (rIdx '/' path + 1))).filter
        fun q => !(trimChars q).isEmpty).map
      fun q => path.take (rIdx '/' path + 1) ++ trimChars q)

/-- Walking a segment list from a node through `children`. -/
def resolveNode : Node → List (List Char) → Option Node
  | t, [] => some t
  | t, k :: ks =>
    match lookupA t.children k with
    | none => none
    | some c => resolveNode c ks

/-- The walk of `_get_node_and_parent` over `parts`, assuming `parts` is
nonempty; `lastName` is `parts[-1]`, reported even when an intermediate
segment is missing. -/
def gnpWalk (cur : Node) (parts : List (List Char)) (lastName : List Char) :
    Option Node × Option Node × List Char :=
  match parts with
  | [] => (none, some cur, [])
  | [k] => (some cur, lookupA cur.children k, k)
  | k :: rest =>
    match lookupA cur.children k with
    | none => (none, none, lastName)
    | some c => gnpWalk c rest lastName

/-- `DirectoryManager._get_node_and_parent`: returns
`(parent?, node?, lastSegmentName)`. -/
def getNodeAndParent (t : Node) (path : List Char) :
    Option Node × Option Node × List Char :=
  if path = [] || path = ['/'] then (none, some t, [])
  else if segs path = [] then (none, some t, [])
  else gnpWalk t (segs path) ((segs path).getLastD [])

/-- The inner loop of `create` (and of `move`'s destination handling):
descend through the segments, creating any missing node `Node(part)`. -/
def createParts : Node → List (List Char) → Node
  | t, [] => t
  | t, k :: ks =>
    match lookupA t.children k with
    | some c => Node.mk t.name (setA t.children k (createParts c ks))
    | none => Node.mk t.name (t.children ++ [(k, createParts (Node.mk k []) ks)])

/-- `DirectoryManager.create`: expand the comma list, then create each
expanded path that passes `_is_valid_path`, skipping invalid ones. -/
def createTree (t : Node) (pathSpec : List Char) : Node :=
  (expandPathList pathSpec).foldl
    (fun acc p => if isValidPath p then createParts acc (segs p) else acc) t

/-- Outcomes of `delete`, per the engine interface. -/
inductive DeleteOutcome : Type where
  | deletedRoot
  | deletedSubtree
  | notFound
  | cancelled
deriving DecidableEq

/-- The literal alias list of `delete`'s special case:
`["", "/", "root", "root/", "list"]`. -/
def rootAliases : List (List Char) :=
  [strL "", strL "/", strL "root", strL "root/", strL "list"]

/-- Rebuilding the tree after `parent.children.pop(target_name)`: walk the
leading segments and drop the final key from that node's children.  Called
only on paths whose node was found, so the missing-segment branches are dead
code kept for totality. -/
def removeChildAt : Node → List (List Char) → Node
  | t, [] => t
  | t, [k] => Node.mk t.name (eraseA t.children k)
  | t, k :: ks =>
    match lookupA t.children k with
    | some c => Node.mk t.name (setA t.children k (removeChildAt c ks))
    | none => t

/-- `DirectoryManager.delete`.  `confirmAnswer` is the result of the
interactive `_confirm_deletion` callback; the final `Bool` of the result
records whether that callback was invoked. -/
def deleteOp (t : Node) (path : List Char) (confirmAnswer : Bool) :
    DeleteOutcome × Node × Bool :=
  if path ∈ rootAliases then
    if !confirmAnswer then (DeleteOutcome.cancelled, t, true)
    else (DeleteOutcome.deletedRoot, Node.mk t.name [], true)
  else
    match getNodeAndParent t path with
    | (none, _, _) => (DeleteOutcome.notFound, t, false)
    | (some par, _, targetName) =>
      match lookupA par.children targetName with
      | none => (DeleteOutcome.notFound, t, false)
      | some target =>
        if !target.children.isEmpty then
          if !confirmAnswer then (DeleteOutcome.cancelled, t, true)
          else (DeleteOutcome.deletedSubtree, removeChildAt t (segs path), true)
        else (DeleteOutcome.deletedSubtree, removeChildAt t (segs path), false)

/-- Outcomes of `move`, per the engine interface. -/
inductive MoveOutcome : Type where
  | moved
  | invalidName
  | identicalPaths
  | sourceNotFound
  | destIsDescendant
  | destNameCollision
deriving DecidableEq

/-- `current.children[src_name] = node_to_move`: walk to the node at the
given segments (which exist, having just been created) and append the new
binding to its children.  The missing-segment branch is dead code. -/
def insertChildAt : Node → List (List Char) → List Char → Node → Node
  | t, [], k, v => Node.mk t.name (t.children ++ [(k, v)])
  | t, q :: qs, k, v =>
    match lookupA t.children q with
    | some c => Node.mk t.name (setA t.children q (insertChildAt c qs k v))
    | none => t

/-- `DirectoryManager.move`.  The checks appear in the source's order; the
mutation sequence (materialise the destination, abort on a name collision,
insert under the destination, remove from the source parent) is replayed as
functional tree updates.  The inner `sourceNotFound` default is the dead
branch for a destination that failed to resolve right after being created. -/
def moveOp (t : Node) (src dst : List Char) : MoveOutcome × Node :=
  if !(isValidPath src) || !(isValidPath dst) then (MoveOutcome.invalidName, t)
  else if src = dst then (MoveOutcome.identicalPaths, t)
  else
    match getNodeAndParent t src with
    | (none, _, _) => (MoveOutcome.sourceNotFound, t)
    | (some srcParent, _, srcName) =>
      match lookupA srcParent.children srcName with
      | none => (MoveOutcome.sourceNotFound, t)
      | some nodeToMove =>
        if isSubdirectory src dst then (MoveOutcome.destIsDescendant, t)
        else
          match resolveNode (createParts t (segs dst)) (segs dst) with
          | none => (MoveOutcome.sourceNotFound, t)
          | some destNode =>
            if (lookupA destNode.children srcName).isSome then
              (MoveOutcome.destNameCollision, createParts t (segs dst))
            else
              (MoveOutcome.moved,
                removeChildAt
                  (insertChildAt (createParts t (segs dst)) (segs dst) srcName nodeToMove)
                  (segs src))

/-- Python `<` on single characters: comparison of code points. -/
def chLt (a b : Char) : Bool := decide (a.toNat < b.toNat)

/-- Python `<` on strings: lexicographic comparison by code point. -/
def lexLt : List Char → List Char → Bool
  | [], [] => false
  | [], _ :: _ => true
  | _ :: _, [] => false
  | a :: as, b :: bs => if chLt a b then true else if chLt b a then false else lexLt as bs

/-- Python `<=` on strings. -/
def lexLe (a b : List Char) : Bool := !(lexLt b a)

/-- Insert a name into an already sorted list of names. -/
def insertName (x : List Char) : List (List Char) → List (List Char)
  | [] => [x]
  | y :: ys => if lexLe x y then x :: y :: ys else y :: insertName x ys

/-- `sorted(node.children.keys())`: Python sorts strings in ascending
lexicographic (code point) order; modelled by insertion sort, which computes
the same ascending rearrangement. -/
def sortNames : List (List Char) → List (List Char)
  | [] => []
  | x :: xs => insertName x (sortNames xs)

/-- A value found by `lookupA` is structurally smaller than the list. -/
theorem sizeOf_lookupA {ch : List (List Char × Node)} {k : List Char} {c : Node}
    (h : lookupA ch k = some c) : sizeOf c < sizeOf ch := by
  induction ch with
  | nil => simp [lookupA] at h
  | cons p rest ih =>
    obtain ⟨k', v⟩ := p
    simp only [lookupA] at h
    split at h
    · cases h
      simp only [List.cons.sizeOf_spec, Prod.mk.sizeOf_spec]
      omega
    · have := ih h
      simp only [List.cons.sizeOf_spec, Prod.mk.sizeOf_spec]
      omega

/-- A node's children list is structurally smaller than the node. -/
theorem sizeOf_children_lt (n : Node) : sizeOf n.children < sizeOf n := by
  cases n with
  | mk nm ch =>
    simp only [Node.children, Node.mk.sizeOf_spec]
    omega

mutual

/-- `DirectoryManager.list` rendered as data: one `(depth, name, isLast)`
row per printed line, starting from the given node. -/
def renderNode (n : Node) (d : Nat) : List (Nat × List Char × Bool) :=
  renderRows d n.children (sortNames (keysA n.children))
termination_by (sizeOf n, 0)
decreasing_by
  exact Prod.Lex.left _ _ (sizeOf_children_lt n)

/-- The `for i, name in enumerate(children)` loop of `list`: each name is
looked up in the (unsorted) children mapping and rendered, then its own
children follow recursively one level deeper.  The missing-name branch is
dead code (every sorted key is a key of the mapping). -/
def renderRows (d : Nat) (ch : List (List Char × Node)) (names : List (List Char)) :
    List (Nat × List Char × Bool) :=
  match names with
  | [] => []
  | nm :: rest =>
    match _h : lookupA ch nm with
    | none => renderRows d ch rest
    | some c => (d, nm, rest.isEmpty) :: (renderNode c (d + 1) ++ renderRows d ch rest)
termination_by (sizeOf ch, names.length)
decreasing_by
  · exact Prod.Lex.right _ (Nat.lt_succ_self _)
  · exact Prod.Lex.left _ _ (sizeOf_lookupA _h)
  · exact Prod.Lex.right _ (Nat.lt_succ_self _)

end

/-- The `list` engine operation: a pure render plus the (unchanged) tree,
mirroring the call contract `list(startPath?) -> rows`. -/
def listOp (t : Node) : List (Nat × List Char × Bool) × Node :=
  (renderNode t 0, t)

mutual

/-- Structural well-formedness of a tree: at every node the child names are
pairwise distinct, and every child is stored under its own `name`. -/
def wfB : Node → Bool
  | Node.mk _ ch => decide (keysA ch).Nodup && wfChildren ch

/-- `wfB` for each binding of a children list. -/
def wfChildren : List (List Char × Node) → Bool
  | [] => true
  | (k, c) :: rest => decide (k = c.name) && wfB c && wfChildren rest

end

mutual

/-- Every node of a tree (the tree itself and, recursively, all children). -/
def allNodes : Node → List Node
  | Node.mk nm ch => Node.mk nm ch :: allNodesL ch

/-- `allNodes` over a children list. -/
def allNodesL : List (List Char × Node) → List Node
  | [] => []
  | (_, c) :: rest => allNodes c ++ allNodesL rest

end

/-- One engine operation, as issued by the command loop. -/
inductive Op : Type where
  | create (pathSpec : List Char)
  | delete (path : List Char) (confirmAnswer : Bool)
  | move (src dst : List Char)

/-- The tree component of one engine operation. -/
def applyOp (t : Node) : Op → Node
  | Op.create p => createTree t p
  | Op.delete p c => (deleteOp t p c).2.1
  | Op.move s d => (moveOp t s d).2

/-- A session: a sequence of engine operations against the shared tree. -/
def applyOps (t : Node) (ops : List Op) : Node :=
  ops.foldl applyOp t

/-- `sourceExists`, the resolution contract used by `delete` and `move`:
the parent is present and the final name is among its children. -/
def sourceExists (t : Node) (path : List Char) : Bool :=
  match getNodeAndParent t path with
  | (some par, _, nm) => (lookupA par.children nm).isSome
  | (none, _, _) => false

/-- Modelled from the spec's validation order for `move` ("first failing
check wins"): the first of the four checks that fails, if any. -/
def moveFirstFailure (t : Node) (src dst : List Char) : Option MoveOutcome :=
  if !(isValidPath src) || !(isValidPath dst) then some MoveOutcome.invalidName
  else if src = dst then some MoveOutcome.identicalPaths
  else if !(sourceExists t src) then some MoveOutcome.sourceNotFound
  else if isSubdirectory src dst then some MoveOutcome.destIsDescendant
  else none

/-! ### Association list laws -/

theorem lookupA_append_left {l : List (List Char × Node)} {k : List Char} {v : Node}
    (r : List (List Char × Node)) (h : lookupA l k = some v) :
    lookupA (l ++ r) k = some v := by
  induction l with
  | nil => simp [lookupA] at h
  | cons p rest ih =>
    obtain ⟨k', w⟩ := p
    by_cases hk : k' = k <;> simp_all [lookupA]

theorem lookupA_append_right {l : List (List Char × Node)} {k : List Char}
    (r : List (List Char × Node)) (h : lookupA l k = none) :
    lookupA (l ++ r) k = lookupA r k := by
  induction l with
  | nil => simp [lookupA]
  | cons p rest ih =>
    obtain ⟨k', w⟩ := p
    by_cases hk : k' = k <;> simp_all [lookupA]

theorem lookupA_setA_self {l : List (List Char × Node)} {k : List Char} {v : Node}
    (w : Node) (h : lookupA l k = some v) : lookupA (setA l k w) k = some w := by
  induction l with
  | nil => simp [lookupA] at h
  | cons p rest ih =>
    obtain ⟨k', v'⟩ := p
    by_cases hk : k' = k <;> simp_all [lookupA, setA]

theorem lookupA_setA_ne {k' k : List Char} (l : List (List Char × Node)) (w : Node)
    (h : k' ≠ k) : lookupA (setA l k w) k' = lookupA l k' := by
  induction l with
  | nil => simp [setA]
  | cons p rest ih =>
    obtain ⟨k'', v⟩ := p
    simp only [setA]
    by_cases hk : k'' = k
    · have hne : ¬(k'' = k') := fun he => h (by rw [← he]; exact hk)
      rw [if_pos hk]
      simp only [lookupA]
      rw [if_neg hne, if_neg hne]
    · rw [if_neg hk]
      simp only [lookupA]
      by_cases h2 : k'' = k' <;> simp [h2, ih]

theorem setA_same {l : List (List Char × Node)} {k : List Char} {v : Node}
    (h : lookupA l k = some v) : setA l k v = l := by
  induction l with
  | nil => simp [setA]
  | cons p rest ih =>
    obtain ⟨k', v'⟩ := p
    simp only [lookupA] at h
    simp only [setA]
    by_cases hk : k' = k
    · rw [if_pos hk] at h ⊢
      cases h
      rfl
    · rw [if_neg hk] at h ⊢
      rw [ih h]

theorem keysA_setA (l : List (List Char × Node)) (k : List Char) (w : Node) :
    keysA (setA l k w) = keysA l := by
  induction l with
  | nil => simp [setA]
  | cons p rest ih =>
    obtain ⟨k', v⟩ := p
    by_cases hk : k' = k <;> simp_all [setA, keysA]

theorem lookupA_none_iff {l : List (List Char × Node)} {k : List Char} :
    lookupA l k = none ↔ k ∉ keysA l := by
  induction l with
  | nil => simp [lookupA, keysA]
  | cons p rest ih =>
    obtain ⟨k', v⟩ := p
    have hkeys : keysA ((k', v) :: rest) = k' :: keysA rest := rfl
    rw [hkeys]
    simp only [lookupA, List.mem_cons]
    by_cases hk : k' = k
    · rw [if_pos hk]
      constructor
      · intro h
        cases h
      · intro h
        exact absurd (Or.inl hk.symm) h
    · rw [if_neg hk, ih]
      constructor
      · intro h hmem
        cases hmem with
        | inl he => exact hk he.symm
        | inr hm => exact h hm
      · intro h hm
        exact h (Or.inr hm)

theorem lookupA_mem {l : List (List Char × Node)} {k : List Char} {v : Node}
    (h : lookupA l k = some v) : (k, v) ∈ l := by
  induction l with
  | nil => simp [lookupA] at h
  | cons p rest ih =>
    obtain ⟨k', v'⟩ := p
    by_cases hk : k' = k <;> simp_all [lookupA]

theorem eraseA_sublist (l : List (List Char × Node)) (k : List Char) :
    (eraseA l k).Sublist l := by
  induction l with
  | nil => simp [eraseA]
  | cons p rest ih =>
    obtain ⟨k', v⟩ := p
    simp only [eraseA]
    by_cases hk : k' = k
    · rw [if_pos hk]
      exact List.sublist_cons_self _ _
    · rw [if_neg hk]
      exact ih.cons₂ _

theorem keysA_eraseA_sublist (l : List (List Char × Node)) (k : List Char) :
    (keysA (eraseA l k)).Sublist (keysA l) :=
  (eraseA_sublist l k).map Prod.fst

theorem lookupA_eraseA_self {l : List (List Char × Node)} {k : List Char}
    (hnd : (keysA l).Nodup) : lookupA (eraseA l k) k = none := by
  induction l with
  | nil => simp [eraseA, lookupA]
  | cons p rest ih =>
    obtain ⟨k', v⟩ := p
    simp only [keysA, List.map_cons, List.nodup_cons] at hnd
    by_cases hk : k' = k
    · subst hk
      simp only [eraseA, if_pos rfl]
      exact lookupA_none_iff.mpr hnd.1
    · simp only [eraseA, if_neg hk, lookupA, if_neg hk]
      exact ih hnd.2

theorem lookupA_eraseA_ne {k' k : List Char} (l : List (List Char × Node))
    (h : k' ≠ k) : lookupA (eraseA l k) k' = lookupA l k' := by
  induction l with
  | nil => simp [eraseA]
  | cons p rest ih =>
    obtain ⟨k'', v⟩ := p
    simp only [eraseA]
    by_cases hk : k'' = k
    · have hne : ¬(k'' = k') := fun he => h (by rw [← he]; exact hk)
      rw [if_pos hk]
      simp only [lookupA]
      rw [if_neg hne]
    · rw [if_neg hk]
      simp only [lookupA]
      by_cases h2 : k'' = k' <;> simp [h2, ih]

/-! ### Root-name preservation -/

theorem createParts_name (t : Node) (ps : List (List Char)) :
    (createParts t ps).name = t.name := by
  cases ps with
  | nil => rfl
  | cons k ks =>
    simp only [createParts]
    split <;> rfl

theorem removeChildAt_name (t : Node) (ps : List (List Char)) :
    (removeChildAt t ps).name = t.name := by
  cases ps with
  | nil => rfl
  | cons k ks =>
    cases ks with
    | nil => rfl
    | cons k' ks' =>
      simp only [removeChildAt]
      split <;> rfl

theorem insertChildAt_name (t : Node) (qs : List (List Char)) (k : List Char) (v : Node) :
    (insertChildAt t qs k v).name = t.name := by
  cases qs with
  | nil => rfl
  | cons q qs' =>
    simp only [insertChildAt]
    split <;> rfl

/-! ### Unfolding helpers for the match-based definitions -/

theorem resolveNode_cons_some {t : Node} {k : List Char} {c : Node}
    (ks : List (List Char)) (hc : lookupA t.children k = some c) :
    resolveNode t (k :: ks) = resolveNode c ks := by
  simp only [resolveNode]
  rw [hc]

theorem resolveNode_cons_none {t : Node} {k : List Char}
    (ks : List (List Char)) (hc : lookupA t.children k = none) :
    resolveNode t (k :: ks) = none := by
  simp only [resolveNode]
  rw [hc]

theorem createParts_cons_some {t : Node} {k : List Char} {c : Node}
    (ks : List (List Char)) (hc : lookupA t.children k = some c) :
    createParts t (k :: ks) = Node.mk t.name (setA t.children k (createParts c ks)) := by
  simp only [createParts]
  rw [hc]

theorem createParts_cons_none {t : Node} {k : List Char}
    (ks : List (List Char)) (hc : lookupA t.children k = none) :
    createParts t (k :: ks) =
      Node.mk t.name (t.children ++ [(k, createParts (Node.mk k []) ks)]) := by
  simp only [createParts]
  rw [hc]

theorem removeChildAt_cons_some {t : Node} {k : List Char} {c : Node}
    (k' : List Char) (ks : List (List Char)) (hc : lookupA t.children k = some c) :
    removeChildAt t (k :: k' :: ks) =
      Node.mk t.name (setA t.children k (removeChildAt c (k' :: ks))) := by
  simp only [removeChildAt]
  rw [hc]

theorem removeChildAt_cons_none {t : Node} {k : List Char}
    (k' : List Char) (ks : List (List Char)) (hc : lookupA t.children k = none) :
    removeChildAt t (k :: k' :: ks) = t := by
  simp only [removeChildAt]
  rw [hc]

theorem insertChildAt_cons_some {t : Node} {q : List Char} {c : Node}
    (qs : List (List Char)) (k : List Char) (v : Node)
    (hc : lookupA t.children q = some c) :
    insertChildAt t (q :: qs) k v =
      Node.mk t.name (setA t.children q (insertChildAt c qs k v)) := by
  simp only [insertChildAt]
  rw [hc]

/-! ### Resolution and creation -/

/-- Creating a path that already fully resolves is a no-op. -/
theorem createParts_of_resolve {t : Node} {ps : List (List Char)} {n : Node}
    (h : resolveNode t ps = some n) : createParts t ps = t := by
  induction ps generalizing t with
  | nil => rfl
  | cons k ks ih =>
    cases hc : lookupA t.children k with
    | none => rw [resolveNode_cons_none ks hc] at h; cases h
    | some c =>
      rw [resolveNode_cons_some ks hc] at h
      rw [createParts_cons_some ks hc, ih h, setA_same hc]
      cases t
      rfl

/-- Creating a path that did not resolve materialises it with an empty
final node. -/
theorem resolve_createParts_of_none {t : Node} {ps : List (List Char)}
    (h : resolveNode t ps = none) :
    ∃ m, resolveNode (createParts t ps) ps = some m ∧ m.children = [] := by
  induction ps generalizing t with
  | nil => simp [resolveNode] at h
  | cons k ks ih =>
    cases hc : lookupA t.children k with
    | some c =>
      rw [resolveNode_cons_some ks hc] at h
      obtain ⟨m, hm, hch⟩ := ih h
      refine ⟨m, ?_, hch⟩
      rw [createParts_cons_some ks hc]
      rw [resolveNode_cons_some ks (t := Node.mk t.name (setA t.children k (createParts c ks)))
        (lookupA_setA_self (createParts c ks) hc)]
      exact hm
    | none =>
      have hlook : lookupA (t.children ++ [(k, createParts (Node.mk k []) ks)]) k
          = some (createParts (Node.mk k []) ks) := by
        rw [lookupA_append_right _ hc]
        simp [lookupA]
      cases ks with
      | nil =>
        refine ⟨Node.mk k [], ?_, rfl⟩
        rw [createParts_cons_none [] hc]
        rw [resolveNode_cons_some []
          (t := Node.mk t.name (t.children ++ [(k, createParts (Node.mk k []) [])])) hlook]
        rfl
      | cons k' ks' =>
        have hnone : resolveNode (Node.mk k []) (k' :: ks') = none := by
          simp [resolveNode, Node.children, lookupA]
        obtain ⟨m, hm, hch⟩ := ih hnone
        refine ⟨m, ?_, hch⟩
        rw [createParts_cons_none (k' :: ks') hc]
        rw [resolveNode_cons_some (k' :: ks')
          (t := Node.mk t.name (t.children ++ [(k, createParts (Node.mk k []) (k' :: ks'))])) hlook]
        exact hm

/-- After `createParts` the created path always resolves. -/
theorem resolve_createParts_isSome (t : Node) (ps : List (List Char)) :
    (resolveNode (createParts t ps) ps).isSome = true := by
  cases h : resolveNode t ps with
  | some n => rw [createParts_of_resolve h, h]; rfl
  | none =>
    obtain ⟨m, hm, _⟩ := resolve_createParts_of_none h
    rw [hm]; rfl

/-- Creation never removes an existing node: any path that resolved before
`createParts` still resolves afterwards. -/
theorem resolve_isSome_createParts {t : Node} {ps : List (List Char)}
    (qs : List (List Char)) (h : (resolveNode t ps).isSome = true) :
    (resolveNode (createParts t qs) ps).isSome = true := by
  induction qs generalizing t ps with
  | nil => simpa [createParts] using h
  | cons q qs' ih =>
    cases ps with
    | nil => simp [resolveNode]
    | cons k ks =>
      cases hk : lookupA t.children k with
      | none => rw [resolveNode_cons_none ks hk] at h; simp at h
      | some c =>
        rw [resolveNode_cons_some ks hk] at h
        cases hq : lookupA t.children q with
        | some cq =>
          rw [createParts_cons_some qs' hq]
          by_cases hkq : k = q
          · subst hkq
            have hc : c = cq := by rw [hk] at hq; cases hq; rfl
            subst hc
            rw [resolveNode_cons_some ks
              (t := Node.mk t.name (setA t.children k (createParts c qs')))
              (lookupA_setA_self (createParts c qs') hq)]
            exact ih h
          · rw [resolveNode_cons_some ks
              (t := Node.mk t.name (setA t.children q (createParts cq qs')))
              (c := c) (by simpa [Node.children] using (lookupA_setA_ne _ _ hkq).trans hk)]
            exact h
        | none =>
          rw [createParts_cons_none qs' hq]
          rw [resolveNode_cons_some ks
            (t := Node.mk t.name (t.children ++ [(q, createParts (Node.mk q []) qs')]))
            (c := c) (by simpa [Node.children] using lookupA_append_left _ hk)]
          exact h

/-! ### Well-formedness -/

theorem mem_setA {ch : List (List Char × Node)} {k : List Char} {w : Node}
    {p : List Char × Node} (h : p ∈ setA ch k w) : p ∈ ch ∨ p = (k, w) := by
  induction ch with
  | nil => simp [setA] at h
  | cons q rest ih =>
    obtain ⟨k', v⟩ := q
    simp only [setA] at h
    by_cases hk : k' = k
    · rw [if_pos hk] at h
      rcases List.mem_cons.mp h with he | hm
      · right
        rw [he, hk]
      · left
        exact List.mem_cons_of_mem _ hm
    · rw [if_neg hk] at h
      rcases List.mem_cons.mp h with he | hm
      · left
        rw [he]
        exact List.mem_cons_self _ _
      · rcases ih hm with hm' | he
        · exact Or.inl (List.mem_cons_of_mem _ hm')
        · exact Or.inr he

theorem wfB_iff {nm : List Char} {ch : List (List Char × Node)} :
    wfB (Node.mk nm ch) = true ↔ (keysA ch).Nodup ∧ wfChildren ch = true := by
  simp [wfB, Bool.and_eq_true, decide_eq_true_iff]

theorem wfChildren_iff {ch : List (List Char × Node)} :
    wfChildren ch = true ↔ ∀ p ∈ ch, p.1 = p.2.name ∧ wfB p.2 = true := by
  induction ch with
  | nil => simp [wfChildren]
  | cons q rest ih =>
    obtain ⟨k, c⟩ := q
    simp only [wfChildren, Bool.and_eq_true, decide_eq_true_iff, ih, List.mem_cons]
    constructor
    · rintro ⟨⟨hname, hwf⟩, hrest⟩ p hp
      rcases hp with he | hm
      · rw [he]
        exact ⟨hname, hwf⟩
      · exact hrest p hm
    · intro h
      refine ⟨⟨(h (k, c) (Or.inl rfl)).1, (h (k, c) (Or.inl rfl)).2⟩, fun p hp => h p (Or.inr hp)⟩

theorem wf_of_lookupA {t : Node} {k : List Char} {c : Node}
    (h : wfB t = true) (hc : lookupA t.children k = some c) :
    k = c.name ∧ wfB c = true := by
  cases t with
  | mk nm ch =>
    rw [wfB_iff] at h
    exact wfChildren_iff.mp h.2 (k, c) (lookupA_mem hc)

theorem wf_resolveNode {t m : Node} {ps : List (List Char)}
    (h : wfB t = true) (hr : resolveNode t ps = some m) : wfB m = true := by
  induction ps generalizing t with
  | nil =>
    cases hr
    exact h
  | cons k ks ih =>
    cases hc : lookupA t.children k with
    | none => rw [resolveNode_cons_none ks hc] at hr; cases hr
    | some c =>
      rw [resolveNode_cons_some ks hc] at hr
      exact ih (wf_of_lookupA h hc).2 hr

theorem wfChildren_setA {ch : List (List Char × Node)} {k : List Char} {c w : Node}
    (h : wfChildren ch = true) (hc : lookupA ch k = some c)
    (hw : wfB w = true) (hname : w.name = c.name) :
    wfChildren (setA ch k w) = true := by
  rw [wfChildren_iff] at h ⊢
  intro p hp
  rcases mem_setA hp with hm | he
  · exact h p hm
  · rw [he]
    refine ⟨?_, hw⟩
    rw [hname]
    exact (h (k, c) (lookupA_mem hc)).1

theorem wfChildren_append_one {ch : List (List Char × Node)} {k : List Char} {w : Node}
    (h : wfChildren ch = true) (hw : wfB w = true) (hname : k = w.name) :
    wfChildren (ch ++ [(k, w)]) = true := by
  rw [wfChildren_iff] at h ⊢
  intro p hp
  rcases List.mem_append.mp hp with hm | hm
  · exact h p hm
  · rw [List.mem_singleton.mp hm]
    exact ⟨hname, hw⟩

theorem keysA_append_one (ch : List (List Char × Node)) (k : List Char) (w : Node) :
    keysA (ch ++ [(k, w)]) = keysA ch ++ [k] := by
  simp [keysA]

theorem wf_empty_node (k : List Char) : wfB (Node.mk k []) = true := by
  simp [wfB, wfChildren, keysA]

theorem wf_createParts {t : Node} (ps : List (List Char)) (h : wfB t = true) :
    wfB (createParts t ps) = true := by
  induction ps generalizing t with
  | nil => exact h
  | cons k ks ih =>
    cases t with
    | mk nm ch =>
      cases hc : lookupA (Node.mk nm ch).children k with
      | some c =>
        have hck := wf_of_lookupA h hc
        rw [createParts_cons_some ks hc, wfB_iff]
        rw [wfB_iff] at h
        constructor
        · rw [keysA_setA]
          exact h.1
        · exact wfChildren_setA h.2 hc (ih hck.2) (by rw [createParts_name])
      | none =>
        rw [createParts_cons_none ks hc, wfB_iff]
        rw [wfB_iff] at h
        constructor
        · rw [keysA_append_one]
          rw [List.nodup_append]
          refine ⟨h.1, List.nodup_singleton _, ?_⟩
          intro a ha hb
          rw [List.mem_singleton.mp hb] at ha
          exact lookupA_none_iff.mp hc ha
        · refine wfChildren_append_one h.2 (ih (wf_empty_node k)) ?_
          rw [createParts_name]
          rfl

theorem wf_createTree {t : Node} (spec : List Char) (h : wfB t = true) :
    wfB (createTree t spec) = true := by
  unfold createTree
  generalize expandPathList spec = ps
  induction ps generalizing t with
  | nil => exact h
  | cons p ps' ih =>
    rw [List.foldl_cons]
    by_cases hv : isValidPath p
    · rw [if_pos hv]
      exact ih (wf_createParts _ h)
    · rw [if_neg hv]
      exact ih h

theorem wfChildren_eraseA {ch : List (List Char × Node)} (k : List Char)
    (h : wfChildren ch = true) : wfChildren (eraseA ch k) = true := by
  rw [wfChildren_iff] at h ⊢
  intro p hp
  exact h p ((eraseA_sublist ch k).subset hp)

theorem wf_removeChildAt {t : Node} (ps : List (List Char)) (h : wfB t = true) :
    wfB (removeChildAt t ps) = true := by
  induction ps generalizing t with
  | nil => exact h
  | cons k ks ih =>
    cases ks with
    | nil =>
      cases t with
      | mk nm ch =>
        rw [wfB_iff] at h
        show wfB (Node.mk nm (eraseA ch k)) = true
        rw [wfB_iff]
        exact ⟨(h.1).sublist (keysA_eraseA_sublist ch k), wfChildren_eraseA k h.2⟩
    | cons k' ks' =>
      cases hc : lookupA t.children k with
      | none =>
        rw [removeChildAt_cons_none k' ks' hc]
        exact h
      | some c =>
        have hck := wf_of_lookupA h hc
        cases t with
        | mk nm ch =>
          rw [removeChildAt_cons_some k' ks' hc, wfB_iff]
          rw [wfB_iff] at h
          constructor
          · rw [keysA_setA]
            exact h.1
          · exact wfChildren_setA h.2 hc (ih hck.2)
              (by rw [removeChildAt_name])

theorem wf_insertChildAt {t v m : Node} {qs : List (List Char)} {k : List Char}
    (h : wfB t = true) (hres : resolveNode t qs = some m)
    (hnone : lookupA m.children k = none) (hv : wfB v = true) (hname : v.name = k) :
    wfB (insertChildAt t qs k v) = true := by
  induction qs generalizing t with
  | nil =>
    cases hres
    cases m with
    | mk nm ch =>
      rw [wfB_iff] at h
      show wfB (Node.mk nm (ch ++ [(k, v)])) = true
      rw [wfB_iff]
      constructor
      · rw [keysA_append_one, List.nodup_append]
        refine ⟨h.1, List.nodup_singleton _, ?_⟩
        intro a ha hb
        rw [List.mem_singleton.mp hb] at ha
        exact lookupA_none_iff.mp hnone ha
      · exact wfChildren_append_one h.2 hv hname.symm
  | cons q qs' ih =>
    cases hc : lookupA t.children q with
    | none => rw [resolveNode_cons_none qs' hc] at hres; cases hres
    | some c =>
      have hck := wf_of_lookupA h hc
      rw [resolveNode_cons_some qs' hc] at hres
      cases t with
      | mk nm ch =>
        rw [insertChildAt_cons_some qs' k v hc, wfB_iff]
        rw [wfB_iff] at h
        constructor
        · rw [keysA_setA]
          exact h.1
        · exact wfChildren_setA h.2 hc (ih hck.2 hres)
            (by rw [insertChildAt_name])

theorem gnpWalk_parent_wf {cur par : Node} {parts : List (List Char)}
    {last nm : List Char} {n? : Option Node}
    (h : wfB cur = true) (hg : gnpWalk cur parts last = (some par, n?, nm)) :
    wfB par = true := by
  induction parts generalizing cur with
  | nil => simp [gnpWalk] at hg
  | cons k rest ih =>
    cases rest with
    | nil =>
      simp only [gnpWalk] at hg
      obtain ⟨h1, -, -⟩ := Prod.mk.injEq .. ▸ hg
      cases h1
      exact h
    | cons k2 rest2 =>
      simp only [gnpWalk] at hg
      cases hc : lookupA cur.children k with
      | none =>
        rw [hc] at hg
        simp at hg
      | some c =>
        rw [hc] at hg
        exact ih (wf_of_lookupA h hc).2 hg

theorem gnp_parent_wf {t par : Node} {p nm : List Char} {n? : Option Node}
    (h : wfB t = true) (hg : getNodeAndParent t p = (some par, n?, nm)) :
    wfB par = true := by
  unfold getNodeAndParent at hg
  split at hg
  · simp at hg
  · split at hg
    · simp at hg
    · exact gnpWalk_parent_wf h hg

theorem wf_deleteOp (t : Node) (p : List Char) (c : Bool) (h : wfB t = true) :
    wfB (deleteOp t p c).2.1 = true := by
  unfold deleteOp
  split
  · split
    · exact h
    · cases t with
      | mk nm ch => simpa [Node.name] using wf_empty_node nm
  · split
    · exact h
    · split
      · exact h
      · split
        · split
          · exact h
          · exact wf_removeChildAt _ h
        · exact wf_removeChildAt _ h

theorem wf_moveOp (t : Node) (s d : List Char) (h : wfB t = true) :
    wfB (moveOp t s d).2 = true := by
  unfold moveOp
  split
  · exact h
  · split
    · exact h
    · split
      · exact h
      · rename_i srcParent nsnd srcName hgnp
        split
        · exact h
        · rename_i nodeToMove hlook
          split
          · exact h
          · split
            · exact h
            · rename_i destNode hres
              have hwf1 : wfB (createParts t (segs d)) = true := wf_createParts _ h
              split
              · exact hwf1
              · rename_i hcoll
                have hnone : lookupA destNode.children srcName = none :=
                  Option.not_isSome_iff_eq_none.mp (by simpa using hcoll)
                have hparwf : wfB srcParent = true := gnp_parent_wf h hgnp
                have hnm := wf_of_lookupA hparwf hlook
                exact wf_removeChildAt _
                  (wf_insertChildAt hwf1 hres hnone hnm.2 hnm.1.symm)

theorem wf_applyOp (t : Node) (op : Op) (h : wfB t = true) :
    wfB (applyOp t op) = true := by
  cases op with
  | create p => exact wf_createTree p h
  | delete p c => exact wf_deleteOp t p c h
  | move s d => exact wf_moveOp t s d h

theorem wf_applyOps (t : Node) (ops : List Op) (h : wfB t = true) :
    wfB (applyOps t ops) = true := by
  unfold applyOps
  induction ops generalizing t with
  | nil => exact h
  | cons op rest ih => exact ih _ (wf_applyOp t op h)

/-! ### Components of `_get_node_and_parent` -/

theorem gnpWalk_node (cur : Node) (parts : List (List Char)) (last : List Char) :
    (gnpWalk cur parts last).2.1 = resolveNode cur parts := by
  induction parts generalizing cur with
  | nil => simp [gnpWalk, resolveNode]
  | cons k rest ih =>
    cases rest with
    | nil =>
      simp only [gnpWalk]
      cases hc : lookupA cur.children k with
      | none => rw [resolveNode_cons_none [] hc]
      | some c =>
        rw [resolveNode_cons_some [] hc]
        rfl
    | cons k2 rest2 =>
      simp only [gnpWalk]
      cases hc : lookupA cur.children k with
      | none =>
        rw [resolveNode_cons_none _ hc]
      | some c =>
        rw [resolveNode_cons_some _ hc]
        exact ih c

theorem gnpWalk_parent (cur : Node) (parts : List (List Char)) (last : List Char)
    (h : parts ≠ []) :
    (gnpWalk cur parts last).1 = resolveNode cur parts.dropLast := by
  induction parts generalizing cur with
  | nil => exact absurd rfl h
  | cons k rest ih =>
    cases rest with
    | nil => rfl
    | cons k2 rest2 =>
      simp only [gnpWalk]
      cases hc : lookupA cur.children k with
      | none =>
        have hnone : resolveNode cur ((k :: k2 :: rest2).dropLast) = none := by
          show resolveNode cur (k :: (k2 :: rest2).dropLast) = none
          exact resolveNode_cons_none _ hc
        rw [hnone]
      | some c =>
        have hsome : resolveNode cur ((k :: k2 :: rest2).dropLast)
            = resolveNode c ((k2 :: rest2).dropLast) := by
          show resolveNode cur (k :: (k2 :: rest2).dropLast)
              = resolveNode c ((k2 :: rest2).dropLast)
          exact resolveNode_cons_some _ hc
        rw [hsome]
        exact ih c (by simp)

theorem gnpWalk_name (cur : Node) (parts : List (List Char)) (d : List Char)
    (h : parts ≠ []) :
    (gnpWalk cur parts (parts.getLastD d)).2.2 = parts.getLastD d := by
  induction parts generalizing cur d with
  | nil => exact absurd rfl h
  | cons k rest ih =>
    cases rest with
    | nil => rfl
    | cons k2 rest2 =>
      simp only [gnpWalk]
      cases hc : lookupA cur.children k with
      | none => rfl
      | some c =>
        rw [List.getLastD_cons]
        exact ih c k (by simp)

theorem gnp_node (t : Node) (p : List Char) :
    (getNodeAndParent t p).2.1 = resolveNode t (segs p) := by
  unfold getNodeAndParent
  split
  · rename_i hsp
    simp only [Bool.or_eq_true, decide_eq_true_iff] at hsp
    rcases hsp with rfl | rfl <;> rfl
  · split
    · rename_i hemp
      rw [hemp]
      rfl
    · exact gnpWalk_node t (segs p) ((segs p).getLastD [])

theorem gnp_parent (t : Node) (p : List Char) (hne : segs p ≠ []) :
    (getNodeAndParent t p).1 = resolveNode t (segs p).dropLast := by
  unfold getNodeAndParent
  split
  · rename_i hsp
    simp only [Bool.or_eq_true, decide_eq_true_iff] at hsp
    rcases hsp with rfl | rfl <;> exact absurd rfl hne
  · exact gnpWalk_parent t (segs p) ((segs p).getLastD []) hne

theorem gnp_name (t : Node) (p : List Char) (hne : segs p ≠ []) :
    (getNodeAndParent t p).2.2 = (segs p).getLastD [] := by
  unfold getNodeAndParent
  split
  · rename_i hsp
    simp only [Bool.or_eq_true, decide_eq_true_iff] at hsp
    rcases hsp with rfl | rfl <;> exact absurd rfl hne
  · exact gnpWalk_name t (segs p) [] hne

theorem sourceExists_eq_true_iff {t : Node} {p : List Char} :
    sourceExists t p = true ↔
      ∃ par n2 nm v, getNodeAndParent t p = (some par, n2, nm) ∧
        lookupA par.children nm = some v := by
  constructor
  · intro h
    rcases hg : getNodeAndParent t p with ⟨p?, n?, nm⟩
    unfold sourceExists at h
    rw [hg] at h
    cases p? with
    | none => simp at h
    | some par =>
      rw [Option.isSome_iff_exists] at h
      obtain ⟨v, hv⟩ := h
      exact ⟨par, n?, nm, v, rfl, hv⟩
  · rintro ⟨par, n2, nm, v, hg, hv⟩
    unfold sourceExists
    rw [hg]
    show (lookupA par.children nm).isSome = true
    rw [hv]
    rfl

/-! ### The lexicographic order used by `sorted` -/

theorem chLt_asymm {a b : Char} (h : chLt a b = true) : chLt b a = false := by
  simp only [chLt, decide_eq_true_iff] at h
  simp only [chLt, decide_eq_false_iff_not]
  omega

theorem chLt_connex {a b : Char} (h1 : chLt a b = false) (h2 : chLt b a = false) : a = b := by
  simp only [chLt, decide_eq_false_iff_not] at h1 h2
  have hn : a.toNat = b.toNat := by omega
  exact (StrictMono.injective (f := Char.toNat) fun _ _ hh => hh) hn

theorem lexLt_asymm {a b : List Char} (h : lexLt a b = true) : lexLt b a = false := by
  induction a generalizing b with
  | nil =>
    cases b with
    | nil => simp [lexLt] at h
    | cons y ys => simp [lexLt]
  | cons x xs ih =>
    cases b with
    | nil => simp [lexLt] at h
    | cons y ys =>
      simp only [lexLt] at h ⊢
      by_cases hxy : chLt x y = true
      · rw [if_pos hxy] at h
        rw [if_neg (by simp [chLt_asymm hxy]), if_pos hxy]
      · rw [if_neg hxy] at h
        by_cases hyx : chLt y x = true
        · rw [if_pos hyx] at h
          cases h
        · rw [if_neg hyx] at h
          rw [if_neg hyx, if_neg hxy]
          exact ih h

theorem lexLt_trans {a b c : List Char} (h1 : lexLt a b = true) (h2 : lexLt b c = true) :
    lexLt a c = true := by
  induction a generalizing b c with
  | nil =>
    cases c with
    | nil =>
      cases b with
      | nil => simp [lexLt] at h1
      | cons y ys => simp [lexLt] at h2
    | cons z zs => simp [lexLt]
  | cons x xs ih =>
    cases b with
    | nil => simp [lexLt] at h1
    | cons y ys =>
      cases c with
      | nil => simp [lexLt] at h2
      | cons z zs =>
        simp only [lexLt] at h1 h2 ⊢
        by_cases hxy : chLt x y = true
        · rw [if_pos hxy] at h1
          by_cases hyz : chLt y z = true
          · have hxz : chLt x z = true := by
              simp only [chLt, decide_eq_true_iff] at hxy hyz ⊢
              omega
            rw [if_pos hxz]
          · rw [if_neg hyz] at h2
            by_cases hzy : chLt z y = true
            · rw [if_pos hzy] at h2
              cases h2
            · rw [if_neg hzy] at h2
              have hyzeq : y = z := chLt_connex (by simpa using hyz) (by simpa using hzy)
              rw [← hyzeq]
              rw [if_pos hxy]
        · rw [if_neg hxy] at h1
          by_cases hyx : chLt y x = true
          · rw [if_pos hyx] at h1
            cases h1
          · rw [if_neg hyx] at h1
            have hxyeq : x = y := chLt_connex (by simpa using hxy) (by simpa using hyx)
            subst hxyeq
            by_cases hxz : chLt x z = true
            · rw [if_pos hxz]
            · rw [if_neg hxz] at h2 ⊢
              by_cases hzx : chLt z x = true
              · rw [if_pos hzx] at h2
                cases h2
              · rw [if_neg hzx] at h2 ⊢
                exact ih h1 h2

theorem lexLt_connex {a b : List Char} (h1 : lexLt a b = false) (h2 : lexLt b a = false) :
    a = b := by
  induction a generalizing b with
  | nil =>
    cases b with
    | nil => rfl
    | cons y ys => simp [lexLt] at h1
  | cons x xs ih =>
    cases b with
    | nil => simp [lexLt] at h2
    | cons y ys =>
      simp only [lexLt] at h1 h2
      by_cases hxy : chLt x y = true
      · rw [if_pos hxy] at h1
        cases h1
      · rw [if_neg hxy] at h1
        by_cases hyx : chLt y x = true
        · rw [if_pos hyx] at h2
          cases h2
        · rw [if_neg hyx] at h1
          rw [if_neg hyx, if_neg hxy] at h2
          have hxyeq : x = y := chLt_connex (by simpa using hxy) (by simpa using hyx)
          rw [hxyeq, ih h1 h2]

theorem lexLe_total {a b : List Char} (h : lexLe a b = false) : lexLe b a = true := by
  simp only [lexLe, Bool.not_eq_false'] at h
  simp only [lexLe, Bool.not_eq_true']
  exact lexLt_asymm h

theorem lexLe_trans {a b c : List Char} (h1 : lexLe a b = true) (h2 : lexLe b c = true) :
    lexLe a c = true := by
  simp only [lexLe, Bool.not_eq_true'] at h1 h2 ⊢
  by_cases hca : lexLt c a = true
  · by_cases hab : lexLt a b = true
    · have := lexLt_trans hca hab
      rw [this] at h2
      cases h2
    · have hab' : a = b := lexLt_connex (by simpa using hab) h1
      subst hab'
      rw [hca] at h2
      cases h2
  · simpa using hca

theorem lexLt_of_le_of_ne {a b : List Char} (h : lexLe a b = true) (hne : a ≠ b) :
    lexLt a b = true := by
  simp only [lexLe, Bool.not_eq_true'] at h
  by_cases hab : lexLt a b = true
  · exact hab
  · exact absurd (lexLt_connex (by simpa using hab) h) hne

/-! ### Insertion sort facts -/

theorem mem_insertName {x a : List Char} {l : List (List Char)} :
    a ∈ insertName x l ↔ a = x ∨ a ∈ l := by
  induction l with
  | nil => simp [insertName]
  | cons y ys ih =>
    simp only [insertName]
    by_cases hxy : lexLe x y = true
    · rw [if_pos hxy]
      simp only [List.mem_cons]
    · rw [if_neg hxy]
      simp only [List.mem_cons, ih]
      tauto

theorem insertName_perm (x : List Char) (l : List (List Char)) :
    (insertName x l).Perm (x :: l) := by
  induction l with
  | nil => simp [insertName]
  | cons y ys ih =>
    simp only [insertName]
    by_cases hxy : lexLe x y = true
    · rw [if_pos hxy]
    · rw [if_neg hxy]
      exact (ih.cons y).trans (List.Perm.swap x y ys)

theorem sortNames_perm (l : List (List Char)) : (sortNames l).Perm l := by
  induction l with
  | nil => simp [sortNames]
  | cons x xs ih =>
    simp only [sortNames]
    exact (insertName_perm x (sortNames xs)).trans (ih.cons x)

theorem insertName_pairwise {x : List Char} {l : List (List Char)}
    (h : List.Pairwise (fun a b => lexLe a b = true) l) :
    List.Pairwise (fun a b => lexLe a b = true) (insertName x l) := by
  induction l with
  | nil => simp [insertName]
  | cons y ys ih =>
    rw [List.pairwise_cons] at h
    simp only [insertName]
    by_cases hxy : lexLe x y = true
    · rw [if_pos hxy]
      rw [List.pairwise_cons]
      refine ⟨?_, List.pairwise_cons.mpr h⟩
      intro b hb
      rcases List.mem_cons.mp hb with rfl | hm
      · exact hxy
      · exact lexLe_trans hxy (h.1 b hm)
    · rw [if_neg hxy]
      rw [List.pairwise_cons]
      refine ⟨?_, ih h.2⟩
      intro b hb
      rcases mem_insertName.mp hb with rfl | hm
      · exact lexLe_total (Bool.not_eq_true _ ▸ hxy)
      · exact h.1 b hm

theorem sortNames_pairwise (l : List (List Char)) :
    List.Pairwise (fun a b => lexLe a b = true) (sortNames l) := by
  induction l with
  | nil => simp [sortNames]
  | cons x xs ih =>
    simp only [sortNames]
    exact insertName_pairwise ih

/-- With distinct names, the sorted enumeration is strictly increasing. -/
theorem sortNames_pairwise_lt {l : List (List Char)} (hnd : l.Nodup) :
    List.Pairwise (fun a b => lexLt a b = true) (sortNames l) := by
  have hnd2 : (sortNames l).Nodup := ((sortNames_perm l).nodup_iff).mpr hnd
  have hle := sortNames_pairwise l
  have hand := List.Pairwise.and hle hnd2
  exact hand.imp fun hab => lexLt_of_le_of_ne hab.1 hab.2

/-! ### Well-formedness of every node in a tree -/

mutual

theorem wf_mem_allNodes : ∀ (n : Node), wfB n = true → ∀ m ∈ allNodes n, wfB m = true
  | Node.mk nm ch, h, m, hm => by
    simp only [allNodes] at hm
    rcases List.mem_cons.mp hm with he | hm'
    · rw [he]
      exact h
    · exact wf_mem_allNodesL ch (wfB_iff.mp h).2 m hm'

theorem wf_mem_allNodesL :
    ∀ (ch : List (List Char × Node)), wfChildren ch = true → ∀ m ∈ allNodesL ch, wfB m = true
  | [], _, m, hm => by simp [allNodesL] at hm
  | (k, c) :: rest, h, m, hm => by
    simp only [allNodesL] at hm
    rcases List.mem_append.mp hm with h1 | h2
    · have hc := wfChildren_iff.mp h (k, c) (List.mem_cons_self _ _)
      exact wf_mem_allNodes c hc.2 m h1
    · have hrest : wfChildren rest = true := by
        rw [wfChildren_iff] at h ⊢
        intro p hp
        exact h p (List.mem_cons_of_mem _ hp)
      exact wf_mem_allNodesL rest hrest m h2

end

/-! ### The create fold -/

theorem foldl_create_preserves {t : Node} {ps : List (List Char)}
    (L : List (List Char)) (h : (resolveNode t ps).isSome = true) :
    (resolveNode
      (L.foldl (fun acc p => if isValidPath p then createParts acc (segs p) else acc) t)
      ps).isSome = true := by
  induction L generalizing t with
  | nil => exact h
  | cons q L' ih =>
    rw [List.foldl_cons]
    refine ih ?_
    by_cases hq : isValidPath q = true
    · rw [if_pos hq]
      exact resolve_isSome_createParts _ h
    · rw [if_neg hq]
      exact h

theorem foldl_create_all_present (L : List (List Char)) (t : Node) :
    ∀ p ∈ L, isValidPath p = true →
      (resolveNode
        (L.foldl (fun acc p => if isValidPath p then createParts acc (segs p) else acc) t)
        (segs p)).isSome = true := by
  induction L generalizing t with
  | nil => simp
  | cons q L' ih =>
    intro p hp hv
    rw [List.foldl_cons]
    rcases List.mem_cons.mp hp with rfl | hmem
    · refine foldl_create_preserves L' ?_
      rw [if_pos hv]
      exact resolve_createParts_isSome t (segs p)
    · exact ih _ p hmem hv

theorem foldl_create_idem (L : List (List Char)) (t : Node)
    (hall : ∀ p ∈ L, isValidPath p = true → (resolveNode t (segs p)).isSome = true) :
    L.foldl (fun acc p => if isValidPath p then createParts acc (segs p) else acc) t = t := by
  induction L generalizing t with
  | nil => rfl
  | cons q L' ih =>
    rw [List.foldl_cons]
    have hq : (if isValidPath q = true then createParts t (segs q) else t) = t := by
      by_cases hv : isValidPath q = true
      · rw [if_pos hv]
        obtain ⟨n, hn⟩ := Option.isSome_iff_exists.mp (hall q (List.mem_cons_self _ _) hv)
        exact createParts_of_resolve hn
      · rw [if_neg hv]
    rw [hq]
    exact ih t fun p hp hv => hall p (List.mem_cons_of_mem _ hp) hv

/-! ## Claims -/

/-- C1: starting from the empty root, every sequence of engine operations
(create, delete, move) keeps the tree well-formed: at every node the
children mapping binds pairwise-distinct names, and each child is stored
under exactly its own name.  In this rose tree embedding, which computes
the structure reachable from the root, connectedness, acyclicity and the
uniqueness of each node's parent are properties of the representation
itself, so the invariant's residual content is exactly `wfB`; in
particular no move leaves any node reachable as a descendant of itself. -/
theorem c1_tree_invariant (ops : List Op) : wfB (applyOps rootNode ops) = true :=
  wf_applyOps rootNode ops (by rfl)

/-- C5, counterexample: the comma-containing path `"a,b"` passes
`_is_valid_path` (a comma is not a reserved character), yet after
`create("a,b")` — which expands the comma list and creates `a` and `b` —
resolving the literal path `"a,b"` finds nothing, refuting "for every path
P accepted by isValidPath, after create(P) the resolution of P yields a
present node". -/
theorem c5_create_counterexample :
    isValidPath (strL "a,b") = true ∧
    (getNodeAndParent (createTree rootNode (strL "a,b")) (strL "a,b")).2.1 = none := by
  constructor
  · decide
  · rfl

/-- C5, amended: for every comma-free path accepted by `_is_valid_path`,
`create` makes the path resolve to a present node (auto-creating missing
ancestors), and `create` is idempotent on every path spec whatsoever:
running it twice from any tree gives the tree of running it once. -/
theorem c5_create_effective_idempotent :
    (∀ (t : Node) (P : List Char), isValidPath P = true → P.contains ',' = false →
      ((getNodeAndParent (createTree t P) P).2.1).isSome = true)
    ∧ ∀ (t : Node) (P : List Char), createTree (createTree t P) P = createTree t P := by
  constructor
  · intro t P hv hc
    rw [gnp_node]
    have hexp : expandPathList P = [P] := by
      unfold expandPathList
      rw [hc]
      rfl
    rw [createTree, hexp]
    simp only [List.foldl_cons, List.foldl_nil]
    rw [if_pos hv]
    exact resolve_createParts_isSome t (segs P)
  · intro t P
    show (expandPathList P).foldl
        (fun acc p => if isValidPath p then createParts acc (segs p) else acc)
        (createTree t P) = createTree t P
    exact foldl_create_idem _ _ fun p hp hv => foldl_create_all_present _ t p hp hv

/-- Witness for C5 at a concrete path. -/
theorem c5_create_effective_idempotent_witness :
    ((getNodeAndParent (createTree rootNode (strL "a/b")) (strL "a/b")).2.1).isSome = true ∧
    createTree (createTree rootNode (strL "a/b")) (strL "a/b")
      = createTree rootNode (strL "a/b") :=
  ⟨c5_create_effective_idempotent.1 rootNode (strL "a/b") (by decide) (by decide),
    c5_create_effective_idempotent.2 rootNode (strL "a/b")⟩

/-- C6: evaluation at the failing input.  The source's alias list for
root-clearing deletion is literally `["", "/", "root", "root/", "list"]`,
so `delete("list")` on a tree whose root has the single child `a` prompts
for confirmation and, on "yes", clears all of root's children instead of
resolving `"list"` as an ordinary (absent) path and reporting not-found. -/
theorem c6_delete_list_alias_eval :
    strL "list" ∈ rootAliases ∧
    deleteOp (createTree rootNode (strL "a")) (strL "list") true
      = (DeleteOutcome.deletedRoot, Node.mk [] [], true) ∧
    deleteOp (createTree rootNode (strL "a")) (strL "list") false
      = (DeleteOutcome.cancelled, createTree rootNode (strL "a"), true) := by
  refine ⟨by decide, rfl, rfl⟩

/-- C7: evaluation at the failing input.  With leaves `a` and `list` under
the root, the path `"list"` resolves to an existing childless node, yet
`delete("list")` invokes the confirmation callback (third component
`true`), cancels when it answers no, and on yes removes *both* children of
the root (the root-clearing special case) instead of just the `list`
entry. -/
theorem c7_delete_leaf_eval :
    resolveNode (createTree (createTree rootNode (strL "a")) (strL "list"))
        (segs (strL "list"))
      = some (Node.mk (strL "list") []) ∧
    deleteOp (createTree (createTree rootNode (strL "a")) (strL "list")) (strL "list") false
      = (DeleteOutcome.cancelled,
          createTree (createTree rootNode (strL "a")) (strL "list"), true) ∧
    deleteOp (createTree (createTree rootNode (strL "a")) (strL "list")) (strL "list") true
      = (DeleteOutcome.deletedRoot, Node.mk [] [], true) := by
  refine ⟨rfl, rfl, rfl⟩

/-- C9: at every level of the listing traversal the children are
enumerated in strictly ascending (alphabetical) name order regardless of
insertion order, and the operation performs no mutation; the empty tree
renders no entries, and creating `b` then `a` under the root lists `a`
before `b`. -/
theorem c9_list_sorted_pure (n : Node) (h : wfB n = true) :
    (∀ m ∈ allNodes n,
      List.Pairwise (fun a b => lexLt a b = true) (sortNames (keysA m.children)))
    ∧ (listOp n).2 = n
    ∧ renderNode rootNode 0 = []
    ∧ renderNode (createTree (createTree rootNode (strL "b")) (strL "a")) 0 =
        [(0, strL "a", false), (0, strL "b", true)] := by
  refine ⟨?_, rfl, ?_, ?_⟩
  · intro m hm
    have hwfm := wf_mem_allNodes n h m hm
    cases m with
    | mk nm ch => exact sortNames_pairwise_lt (wfB_iff.mp hwfm).1
  · simp [renderNode, renderRows, rootNode, sortNames, keysA, Node.children]
  · simp [renderNode, renderRows, createTree, expandPathList, strL, segs, splitOnChar,
      isValidPath, createParts, lookupA, rootNode, sortNames, keysA, setA, insertName,
      lexLe, lexLt, chLt, reservedChars, Node.name, Node.children]

/-- Witness for C9 at a concrete well-formed tree. -/
theorem c9_list_sorted_pure_witness :
    (∀ m ∈ allNodes (createTree rootNode (strL "b")),
      List.Pairwise (fun a b => lexLt a b = true) (sortNames (keysA m.children)))
    ∧ (listOp (createTree rootNode (strL "b"))).2 = createTree rootNode (strL "b")
    ∧ renderNode rootNode 0 = []
    ∧ renderNode (createTree (createTree rootNode (strL "b")) (strL "a")) 0 =
        [(0, strL "a", false), (0, strL "b", true)] :=
  c9_list_sorted_pure (createTree rootNode (strL "b")) (by rfl)

/-! ### Helpers for the move claims -/

theorem sourceExists_of_parts {t par : Node} {p nm : List Char} {n2 : Option Node} {v : Node}
    (hg : getNodeAndParent t p = (some par, n2, nm))
    (hv : lookupA par.children nm = some v) : sourceExists t p = true :=
  sourceExists_eq_true_iff.mpr ⟨par, n2, nm, v, hg, hv⟩

theorem gnp_not_none_of_sourceExists {t : Node} {p nm : List Char} {n2 : Option Node}
    (h : sourceExists t p = true) (hg : getNodeAndParent t p = (none, n2, nm)) : False := by
  rcases sourceExists_eq_true_iff.mp h with ⟨par, n2', nm', v, hg', hv⟩
  rw [hg] at hg'
  simp at hg'

theorem lookup_isSome_of_sourceExists {t par : Node} {p nm : List Char} {n2 : Option Node}
    (h : sourceExists t p = true) (hg : getNodeAndParent t p = (some par, n2, nm)) :
    (lookupA par.children nm).isSome = true := by
  rcases sourceExists_eq_true_iff.mp h with ⟨par', n2', nm', v, hg', hv⟩
  rw [hg] at hg'
  have hp : par = par' := Option.some.inj (congrArg Prod.fst hg')
  have hn : nm = nm' := congrArg (fun q => q.2.2) hg'
  rw [hp, hn, hv]
  rfl

theorem zip_append_all_eq (l e : List (List Char)) :
    ((l.zip (l ++ e)).all fun q => decide (q.1 = q.2)) = true := by
  induction l with
  | nil => rfl
  | cons x xs ih =>
    simp only [List.cons_append, List.zip_cons_cons, List.all_cons, ih]
    simp

/-- A strict segment extension makes `_is_subdirectory` true. -/
theorem isSubdirectory_of_extension {src dst : List Char} {ext : List (List Char)}
    (hseg : segs dst = segs src ++ ext) (hne : ext ≠ []) :
    isSubdirectory src dst = true := by
  simp only [isSubdirectory]
  have hlen : (segs src).length < (segs dst).length := by
    rw [hseg, List.length_append]
    have := List.length_pos.mpr hne
    omega
  rw [if_neg (by omega)]
  rw [hseg]
  exact zip_append_all_eq (segs src) ext

/-- A strictly shorter destination segment list makes `_is_subdirectory`
false. -/
theorem isSubdirectory_false_of_shorter {src dst : List Char}
    (hlt : (segs dst).length ≤ (segs src).length) :
    isSubdirectory src dst = false := by
  simp only [isSubdirectory]
  rw [if_pos hlt]

/-- C2, counterexample: `"a/b"` is a strict descendant path of `"a"` (its
segment sequence strictly extends), yet on the empty tree
`move("a","a/b")` reports `sourceNotFound`, not `destIsDescendant` — the
source-existence check is performed first, so the claim fails for sources
that do not exist. -/
theorem c2_descendant_counterexample :
    segs (strL "a/b") = segs (strL "a") ++ [strL "b"] ∧
    (moveOp rootNode (strL "a") (strL "a/b")).1 = MoveOutcome.sourceNotFound ∧
    (moveOp rootNode (strL "a") (strL "a/b")).1 ≠ MoveOutcome.destIsDescendant := by
  refine ⟨by decide, by decide, by decide⟩

/-- C2, amended: when both paths pass `_is_valid_path` and the source
resolves to an existing node, a destination whose segment sequence
strictly extends the source's always fails with `destIsDescendant`, and
the tree is returned unchanged. -/
theorem c2_descendant_amended (t : Node) (src dst : List Char)
    (ext : List (List Char))
    (hs : isValidPath src = true) (hd : isValidPath dst = true)
    (hex : sourceExists t src = true)
    (hseg : segs dst = segs src ++ ext) (hne : ext ≠ []) :
    moveOp t src dst = (MoveOutcome.destIsDescendant, t) := by
  have hsub : isSubdirectory src dst = true := isSubdirectory_of_extension hseg hne
  have hne2 : src ≠ dst := by
    intro he
    rw [he] at hseg
    have hlen := congrArg List.length hseg
    rw [List.length_append] at hlen
    have := List.length_pos.mpr hne
    omega
  unfold moveOp
  split
  · rename_i hbad
    rw [hs, hd] at hbad
    simp at hbad
  · split
    · rename_i hgq
      exact absurd hgq fun hq => gnp_not_none_of_sourceExists hex hq
    · rename_i hgnp
      split
      · rename_i hlook
        have hl2 := lookup_isSome_of_sourceExists hex hgnp
        rw [hlook] at hl2
        cases hl2
      · rfl

/-- Witness for the amended C2. -/
theorem c2_descendant_amended_witness :
    moveOp (createTree rootNode (strL "a")) (strL "a") (strL "a/b")
      = (MoveOutcome.destIsDescendant, createTree rootNode (strL "a")) :=
  c2_descendant_amended (createTree rootNode (strL "a")) (strL "a") (strL "a/b")
    [strL "b"] (by decide) (by decide) (by decide) (by decide) (by decide)

/-- C3: whenever `move` fails with the name-collision outcome, the tree it
returns is exactly the input tree — in particular the destination-path
materialisation that precedes the collision check cannot have created
anything, because a collision requires the destination node (and hence all
its ancestors) to have pre-existed. -/
theorem c3_collision_unchanged (t : Node) (src dst : List Char)
    (h : (moveOp t src dst).1 = MoveOutcome.destNameCollision) :
    (moveOp t src dst).2 = t := by
  revert h
  unfold moveOp
  split
  · intro h
    simp at h
  · split
    · intro h
      simp at h
    · split
      · intro h
        simp at h
      · split
        · intro h
          simp at h
        · split
          · intro h
            simp at h
          · split
            · intro h
              simp at h
            · rename_i destNode hres
              split
              · rename_i hcoll
                intro _
                show createParts t (segs dst) = t
                cases hrt : resolveNode t (segs dst) with
                | some n => exact createParts_of_resolve hrt
                | none =>
                  obtain ⟨m, hm, hch⟩ := resolve_createParts_of_none hrt
                  rw [hres] at hm
                  have hdm := Option.some.inj hm
                  rw [← hdm] at hch
                  rw [hch] at hcoll
                  simp [lookupA] at hcoll
              · intro h
                simp at h

/-- Witness for C3: the spec's own collision scenario (`a/b` and `c/b`
exist; moving `a/b` to `c` collides on the name `b`). -/
theorem c3_collision_unchanged_witness :
    (moveOp (createTree (createTree rootNode (strL "a/b")) (strL "c/b"))
        (strL "a/b") (strL "c")).1 = MoveOutcome.destNameCollision ∧
    (moveOp (createTree (createTree rootNode (strL "a/b")) (strL "c/b"))
        (strL "a/b") (strL "c")).2
      = createTree (createTree rootNode (strL "a/b")) (strL "c/b") :=
  ⟨by decide,
    c3_collision_unchanged (createTree (createTree rootNode (strL "a/b")) (strL "c/b"))
      (strL "a/b") (strL "c") (by decide)⟩

/-- C4: `move`'s failure outcome is decided by the first failing check in
the fixed order invalid-name, identical-paths, source-not-found,
destination-is-descendant (as formalised by `moveFirstFailure`, written
from the spec's validation order); when none of the four checks fails the
outcome is `moved` or `destNameCollision`. -/
theorem c4_move_check_order (t : Node) (s d : List Char) :
    (match moveFirstFailure t s d with
      | some o => (moveOp t s d).1 = o
      | none => (moveOp t s d).1 = MoveOutcome.moved ∨
          (moveOp t s d).1 = MoveOutcome.destNameCollision : Prop) := by
  by_cases h1 : (!isValidPath s || !isValidPath d) = true
  · rw [moveFirstFailure, if_pos h1]
    show (moveOp t s d).1 = MoveOutcome.invalidName
    unfold moveOp
    rw [if_pos h1]
  · rw [moveFirstFailure, if_neg h1]
    by_cases h2 : s = d
    · rw [if_pos h2]
      show (moveOp t s d).1 = MoveOutcome.identicalPaths
      unfold moveOp
      rw [if_neg h1, if_pos h2]
    · rw [if_neg h2]
      by_cases h3 : sourceExists t s = true
      · rw [if_neg (by simp [h3])]
        by_cases h4 : isSubdirectory s d = true
        · rw [if_pos h4]
          show (moveOp t s d).1 = MoveOutcome.destIsDescendant
          unfold moveOp
          rw [if_neg h1, if_neg h2]
          split
          · rename_i hgq
            exact absurd hgq fun hq => gnp_not_none_of_sourceExists h3 hq
          · rename_i hgnp
            split
            · rename_i hlook
              have hl2 := lookup_isSome_of_sourceExists h3 hgnp
              rw [hlook] at hl2
              cases hl2
            · rw [if_pos h4]
        · rw [if_neg h4]
          show (moveOp t s d).1 = MoveOutcome.moved ∨
              (moveOp t s d).1 = MoveOutcome.destNameCollision
          unfold moveOp
          rw [if_neg h1, if_neg h2]
          split
          · rename_i hgq
            exact absurd hgq fun hq => gnp_not_none_of_sourceExists h3 hq
          · rename_i hgnp
            split
            · rename_i hlook
              have hl2 := lookup_isSome_of_sourceExists h3 hgnp
              rw [hlook] at hl2
              cases hl2
            · split
              · rename_i hsubt
                exact absurd hsubt h4
              · split
                · rename_i hres
                  have hsm := resolve_createParts_isSome t (segs d)
                  rw [hres] at hsm
                  cases hsm
                · split
                  · exact Or.inr rfl
                  · exact Or.inl rfl
      · rw [if_pos (by simp [Bool.not_eq_true] at h3; simp [h3])]
        show (moveOp t s d).1 = MoveOutcome.sourceNotFound
        unfold moveOp
        rw [if_neg h1, if_neg h2]
        split
        · rfl
        · rename_i hgnp
          split
          · rfl
          · rename_i hlook
            exact absurd (sourceExists_of_parts hgnp hlook) h3

/-- C10: moving a node to the path of its own current parent (a
destination whose segment sequence is the source's without its final
segment; the root parent is reachable as `"/"`) always fails with
`destNameCollision` — the node collides with its own existing entry — and
the tree is unchanged. -/
theorem c10_move_to_parent_collides (t : Node) (src dst : List Char)
    (hs : isValidPath src = true) (hd : isValidPath dst = true)
    (hex : sourceExists t src = true)
    (hseg : segs dst = (segs src).dropLast) (hne : segs src ≠ []) :
    moveOp t src dst = (MoveOutcome.destNameCollision, t) := by
  rcases sourceExists_eq_true_iff.mp hex with ⟨par, n2, nm, v, hg, hv⟩
  have hpar := gnp_parent t src hne
  have hnm := gnp_name t src hne
  rw [hg] at hpar hnm
  have hlt : (segs dst).length ≤ (segs src).length := by
    rw [hseg]
    have := List.length_dropLast (segs src)
    omega
  have hltstrict : (segs dst).length < (segs src).length := by
    rw [hseg]
    have h0 := List.length_pos.mpr hne
    rw [List.length_dropLast]
    omega
  have hne2 : src ≠ dst := by
    intro he
    rw [he] at hltstrict
    omega
  have hsub : isSubdirectory src dst = false := isSubdirectory_false_of_shorter hlt
  have hres0 : resolveNode t (segs dst) = some par := by
    rw [hseg]
    exact hpar.symm
  have hcp : createParts t (segs dst) = t := createParts_of_resolve hres0
  have hsub2 : ¬(isSubdirectory src dst = true) := by
    rw [hsub]
    simp
  unfold moveOp
  split
  · rename_i hbad
    rw [hs, hd] at hbad
    simp at hbad
  · split
    · rename_i hgq
      exact absurd hgq fun hq => gnp_not_none_of_sourceExists hex hq
    · rename_i hgnp
      have hpn := Option.some.inj (congrArg Prod.fst (hgnp.symm.trans hg))
      have htn := congrArg (fun q : Option Node × Option Node × List Char => q.2.2)
        (hgnp.symm.trans hg)
      dsimp only at htn
      split
      · rename_i hlook
        have hl2 := lookup_isSome_of_sourceExists hex hgnp
        rw [hlook] at hl2
        cases hl2
      · split
        · rename_i hres
          rw [hcp, hres0] at hres
          cases hres
        · rename_i destNode hres
          rw [hcp, hres0] at hres
          have hdn := Option.some.inj hres
          split
          · rw [hcp]
          · rename_i hnol
            refine absurd ?_ hnol
            rw [htn, ← hdn, hv]
            rfl

/-- Witness for C10: moving `a/b` to `a` collides with its own entry. -/
theorem c10_move_to_parent_collides_witness :
    moveOp (createTree rootNode (strL "a/b")) (strL "a/b") (strL "a")
      = (MoveOutcome.destNameCollision, createTree rootNode (strL "a/b")) :=
  c10_move_to_parent_collides (createTree rootNode (strL "a/b")) (strL "a/b") (strL "a")
    (by decide) (by decide) (by decide) (by decide) (by decide)

/-! ### The comma expansion (C8) -/

theorem firstIdx_lt_length {c : Char} {l : List Char} (h : l.contains c = true) :
    firstIdx c l < l.length := by
  induction l with
  | nil => simp [List.contains] at h
  | cons x xs ih =>
    simp only [firstIdx]
    by_cases hx : x = c
    · rw [if_pos hx]
      simp
    · rw [if_neg hx]
      have hc : xs.contains c = true := by
        rw [List.contains_cons] at h
        rcases Bool.or_eq_true .. ▸ h with h1 | h1
        · exact absurd (beq_iff_eq .. |>.mp h1).symm hx
        · exact h1
      have := ih hc
      simp only [List.length_cons]
      omega

theorem dropWhile_ne_of_contains {c : Char} {l : List Char} (h : l.contains c = true) :
    ∃ rest, l.dropWhile (fun x => !(x = c)) = c :: rest := by
  induction l with
  | nil => simp [List.contains] at h
  | cons x xs ih =>
    by_cases hx : x = c
    · subst hx
      exact ⟨xs, by simp [List.dropWhile]⟩
    · have hc : xs.contains c = true := by
        rw [List.contains_cons] at h
        rcases Bool.or_eq_true .. ▸ h with h1 | h1
        · exact absurd (beq_iff_eq .. |>.mp h1).symm hx
        · exact h1
      obtain ⟨rest, hrest⟩ := ih hc
      refine ⟨rest, ?_⟩
      rw [List.dropWhile_cons]
      simp only [hx]
      simpa using hrest

theorem takeWhile_not_contains (c : Char) (l : List Char) :
    (l.takeWhile (fun x => !(x = c))).contains c = false := by
  by_contra h
  rw [Bool.not_eq_false] at h
  have hm : c ∈ l.takeWhile (fun x => !(x = c)) := by simpa using h
  have := List.mem_takeWhile_imp hm
  simp at this

/-- Splitting a list at the last occurrence of a character: the prefix of
`rIdx`-based slicing is the reverse-`dropWhile`, the suffix the
reverse-`takeWhile`. -/
theorem rIdx_split {c : Char} (r : List Char) (h : r.contains c = true) :
    r.reverse.take (r.length - firstIdx c r) = (r.dropWhile (fun x => !(x = c))).reverse ∧
    r.reverse.drop (r.length - firstIdx c r) = (r.takeWhile (fun x => !(x = c))).reverse := by
  induction r with
  | nil => simp [List.contains] at h
  | cons x rs ih =>
    by_cases hx : x = c
    · subst hx
      simp only [firstIdx, if_pos rfl, Nat.sub_zero]
      constructor
      · rw [List.take_of_length_le (by simp)]
        simp [List.dropWhile]
      · rw [List.drop_of_length_le (by simp)]
        simp [List.takeWhile]
    · have hc : rs.contains c = true := by
        rw [List.contains_cons] at h
        rcases Bool.or_eq_true .. ▸ h with h1 | h1
        · exact absurd (beq_iff_eq .. |>.mp h1).symm hx
        · exact h1
      have hlt := firstIdx_lt_length hc
      obtain ⟨ih1, ih2⟩ := ih hc
      have hn : (x :: rs).length - firstIdx c (x :: rs) = rs.length - firstIdx c rs := by
        simp only [firstIdx, if_neg hx, List.length_cons]
        omega
      have hle : rs.length - firstIdx c rs ≤ rs.reverse.length := by
        simp
      constructor
      · rw [hn, List.reverse_cons, List.take_append_of_le_length hle, ih1,
          List.dropWhile_cons]
        simp [hx]
      · rw [hn, List.reverse_cons, List.drop_append_of_le_length hle, ih2,
          List.takeWhile_cons]
        simp [hx]

theorem rIdx_succ {c : Char} {p : List Char} (h : p.contains c = true) :
    rIdx c p + 1 = p.length - firstIdx c p.reverse := by
  have hrev : p.reverse.contains c = true := by
    have : c ∈ p := by simpa using h
    simpa using this
  have := firstIdx_lt_length hrev
  rw [List.length_reverse] at this
  unfold rIdx
  omega

theorem map_trim_filter (l : List (List Char)) :
    ((l.filter fun q => !(trimChars q).isEmpty).map trimChars)
      = (l.map trimChars).filter fun q => !q.isEmpty := by
  induction l with
  | nil => rfl
  | cons x xs ih =>
    by_cases h : (trimChars x).isEmpty = true
    · simp [List.filter_cons, h, ih]
    · rw [Bool.not_eq_true] at h
      simp [List.filter_cons, h, ih]

theorem map_base_trim_filter (base : List Char) (l : List (List Char)) :
    ((l.filter fun q => !(trimChars q).isEmpty).map fun q => base ++ trimChars q)
      = (((l.map trimChars).filter fun q => !q.isEmpty).map fun q => base ++ q) := by
  rw [← map_trim_filter, List.map_map]
  rfl

/-- C8: `_expand_path_list` returns a comma-free path as a singleton;
when the first comma comes before any separator it splits the whole string
on commas into independent trimmed non-empty paths; when the first comma
comes after a separator it decomposes the path as `base ++ rem` where
`base` is everything up to and including the last separator (it ends in
`/` and `rem` has no separator) and prefixes `base` onto every trimmed
non-empty comma piece of `rem`; the spec's two concrete examples hold. -/
theorem c8_expand_list :
    (∀ p : List Char, p.contains ',' = false → expandPathList p = [p])
    ∧ (∀ p : List Char, p.contains ',' = true →
        p.contains '/' = false ∨ firstIdx ',' p < firstIdx '/' p →
        expandPathList p = ((splitOnChar ',' p).map trimChars).filter fun q => !q.isEmpty)
    ∧ (∀ p : List Char, p.contains ',' = true → p.contains '/' = true →
        firstIdx '/' p < firstIdx ',' p →
        ∃ base rem, p = base ++ rem ∧ rem.contains '/' = false ∧
          base.getLastD ' ' = '/' ∧
          expandPathList p =
            (((splitOnChar ',' rem).map trimChars).filter fun q => !q.isEmpty).map
              fun q => base ++ q)
    ∧ expandPathList (strL "fruits,family") = [strL "fruits", strL "family"]
    ∧ expandPathList (strL "fruits/citrus/lemon,lime") =
        [strL "fruits/citrus/lemon", strL "fruits/citrus/lime"] := by
  refine ⟨?_, ?_, ?_, by decide, by decide⟩
  · intro p h
    unfold expandPathList
    rw [h]
    rfl
  · intro p hc hor
    unfold expandPathList
    rw [hc]
    rw [if_neg (by simp)]
    rw [if_pos ?_, map_trim_filter]
    rcases hor with h1 | h1
    · rw [h1]
      simp
    · simp [h1]
  · intro p hc hs hlt
    refine ⟨p.take (rIdx '/' p + 1), p.drop (rIdx '/' p + 1),
      (List.take_append_drop _ p).symm, ?_, ?_, ?_⟩
    · rw [rIdx_succ hs]
      have hrevc : p.reverse.contains '/' = true := by
        have : '/' ∈ p := by simpa using hs
        simpa using this
      have hsplit := (rIdx_split p.reverse hrevc).2
      rw [List.reverse_reverse, List.length_reverse] at hsplit
      rw [hsplit]
      have hmem : '/' ∉ p.reverse.takeWhile (fun x => !(x = '/')) := by
        intro hm
        have := List.mem_takeWhile_imp hm
        simp at this
      by_contra hcon
      rw [Bool.not_eq_false] at hcon
      have hmr : '/' ∈ (p.reverse.takeWhile fun x => !(x = '/')).reverse := by
        simpa using hcon
      rw [List.mem_reverse] at hmr
      exact hmem hmr
    · rw [rIdx_succ hs]
      have hrevc : p.reverse.contains '/' = true := by
        have : '/' ∈ p := by simpa using hs
        simpa using this
      have hsplit := (rIdx_split p.reverse hrevc).1
      rw [List.reverse_reverse, List.length_reverse] at hsplit
      rw [hsplit]
      obtain ⟨rest, hrest⟩ := dropWhile_ne_of_contains hrevc
      rw [hrest]
      show ((('/' : Char) :: rest).reverse).getLastD ' ' = '/'
      rw [List.reverse_cons]
      rw [List.getLastD_eq_getLast?, List.getLast?_concat]
      rfl
    · unfold expandPathList
      rw [hc]
      rw [if_neg (by simp)]
      rw [if_neg ?_, map_base_trim_filter]
      rw [hs]
      simp only [Bool.not_true, Bool.false_or, decide_eq_true_eq]
      omega

/-- Witness for C8, exercising the comma-free branch at a concrete path. -/
theorem c8_expand_list_witness : expandPathList (strL "plain") = [strL "plain"] :=
  c8_expand_list.1 (strL "plain") (by decide)

end DirCLI
